import Mathlib

/-!
Shallow embedding of `scripts/export_data.py`, a single-pass script that
reads a SQLite store of parliamentary data (legislators, bills, subject
tags, vote records, voting sessions, embeddings) and writes four JSON
files.  Query results are modelled as lists of row structures; the pure
reshaping logic of the script is translated function by function.  SQLite
TEXT values are Lean strings, NULLable columns are `Option String`, and
the byte order SQLite uses on TEXT (BINARY collation) is modelled by a
lexicographic order on code points, which agrees with UTF-8 byte order.
The float literals 0.85 and 0.80 of the script carry no arithmetic, so
they are modelled as exact rationals.
-/

namespace ExportData

/-! ### Python and SQLite string primitives -/

/-- Model of Python `str.lower` on one character; the script only ever
lowers before matching ASCII needles, so the ASCII range is modelled. -/
def lowerChar (c : Char) : Char :=
  if 'A' ≤ c ∧ c ≤ 'Z' then Char.ofNat (c.toNat + 32) else c

/-- Model of Python `str.lower`. -/
def pyLower (s : String) : String := String.mk (s.data.map lowerChar)

/-- Contiguous-subsequence test on character lists. -/
def hasSeq (needle : List Char) : List Char → Bool
  | [] => needle.isEmpty
  | c :: t => needle.isPrefixOf (c :: t) || hasSeq needle t

/-- Model of the Python membership test `needle in hay` on strings. -/
def strContains (hay needle : String) : Bool := hasSeq needle.data hay.data

/-- Model of Python `s.replace(" ", "_")`: the pattern is one character,
so the replacement is a character map. -/
def replaceSpace (s : String) : String :=
  String.mk (s.data.map (fun c => if c = ' ' then '_' else c))

/-- Truthiness of an optional string in Python: `None` and the empty
string are falsy. -/
def pyTruthy : Option String → Bool
  | none => false
  | some s => !(s == "")

/-- Model of the Python idiom `x or dflt` on an optional string. -/
def pyOrStr (o : Option String) (dflt : String) : String :=
  if pyTruthy o then o.getD "" else dflt

/-- Lexicographic order on character lists by code point; on UTF-8
encoded text this is exactly the SQLite BINARY collation byte order. -/
def charsLe : List Char → List Char → Bool
  | [], _ => true
  | _ :: _, [] => false
  | a :: as, b :: bs =>
    if a < b then true
    else if b < a then false
    else charsLe as bs

/-- String comparison in the order SQLite uses for `ORDER BY` on TEXT. -/
def strLeB (a b : String) : Bool := charsLe a.data b.data

/-! ### Insertion sort, modelling a SQL `ORDER BY` clause -/

/-- Insert an element in front of the first list element it precedes. -/
def insOrd (le : α → α → Bool) (a : α) : List α → List α
  | [] => [a]
  | b :: bs => if le a b then a :: b :: bs else b :: insOrd le a bs

/-- Sort a list of rows by repeated ordered insertion. -/
def sortIns (le : α → α → Bool) : List α → List α
  | [] => []
  | a :: as => insOrd le a (sortIns le as)

/-! ### Vote statistics (`export_parlamentarios`, lines 59-83)

The script runs `SELECT voto, COUNT(*) ... GROUP BY voto` and then folds
over the returned group rows, assigning each matching group count into
one of four buckets.  The group rows of a vote-label list are any list of
distinct labels paired with their multiplicities; SQL leaves their order
unspecified. -/

structure VoteStats where
  a_favor : Nat
  en_contra : Nat
  abstencion : Nat
  pareo : Nat
deriving DecidableEq

/-- One iteration of the classification loop over the `GROUP BY voto`
rows: lower-case, replace spaces by underscores, then test the four
substrings in order and assign (not add) the group count. -/
def classifyStep (stats : VoteStats) (g : String × Nat) : VoteStats :=
  let v := replaceSpace (pyLower g.1)
  if strContains v "favor" then { stats with a_favor := g.2 }
  else if strContains v "contra" then { stats with en_contra := g.2 }
  else if strContains v "absten" then { stats with abstencion := g.2 }
  else if strContains v "pareo" then { stats with pareo := g.2 }
  else stats

/-- The `stats` dictionary after the classification loop, starting from
all-zero buckets. -/
def voteStats (groups : List (String × Nat)) : VoteStats :=
  groups.foldl classifyStep ⟨0, 0, 0, 0⟩

/-- Python `sum(stats.values())`. -/
def statsTotal (s : VoteStats) : Nat := s.a_favor + s.en_contra + s.abstencion + s.pareo

/-- The exported `estadisticas_voto` object: the total plus the four
buckets. -/
structure EstadisticasVoto where
  total : Nat
  a_favor : Nat
  en_contra : Nat
  abstencion : Nat
  pareo : Nat
deriving DecidableEq

def mkEstadisticas (groups : List (String × Nat)) : EstadisticasVoto :=
  let s := voteStats groups
  ⟨statsTotal s, s.a_favor, s.en_contra, s.abstencion, s.pareo⟩

/-- Specification of the rows `SELECT voto, COUNT(*) ... GROUP BY voto`
may return for a given multiset of raw vote labels: distinct labels, each
paired with its multiplicity, covering every cast label; the row order is
left free, as SQL does. -/
def IsGroupRows (votes : List String) (groups : List (String × Nat)) : Prop :=
  (groups.map Prod.fst).Nodup ∧
  (∀ g ∈ groups, g.1 ∈ votes ∧ g.2 = votes.count g.1) ∧
  (∀ v ∈ votes, v ∈ groups.map Prod.fst)

instance (votes : List String) (groups : List (String × Nat)) :
    Decidable (IsGroupRows votes groups) := by
  unfold IsGroupRows; infer_instance

/-- Claim-side category test: a raw label counts toward `a_favor` when
its normalised form contains `favor`. -/
def catFavor (v : String) : Bool := strContains (replaceSpace (pyLower v)) "favor"

/-! ### Recent votes (`export_parlamentarios`, lines 85-103) -/

/-- One row of the recent-votes join
`SELECT b.bill_id, b.titulo, vp.voto, sv.fecha ... WHERE vp.mp_uid = ?`. -/
structure RecentRow where
  bill_id : String
  titulo : String
  voto : String
  fecha : String
deriving DecidableEq

/-- One entry of the exported `votaciones_recientes` list. -/
structure RecentEntry where
  bill_id : String
  titulo : String
  voto : String
  fecha : String
deriving DecidableEq

/-- The title shortening `titulo[:100] + "..." if len(titulo) > 100 else titulo`. -/
def truncTitulo (t : String) : String :=
  if t.length > 100 then t.take 100 ++ "..." else t

def mkRecentEntry (r : RecentRow) : RecentEntry :=
  ⟨r.bill_id, truncTitulo r.titulo, pyLower r.voto, r.fecha⟩

/-- Comparator embedding `ORDER BY sv.fecha DESC`: a row comes first when
its date is at least the other date. -/
def fechaDescLe (a b : RecentRow) : Bool := strLeB b.fecha a.fecha

/-- The exported recent-vote history of one legislator: the join rows
ordered by date descending, limited to 20 (`LIMIT 20`), each reshaped. -/
def recentVotes (rows : List RecentRow) : List RecentEntry :=
  ((sortIns fechaDescLe rows).take 20).map mkRecentEntry

/-! ### Bills (`export_bills`, lines 115-196) -/

/-- One row of `SELECT bill_id, titulo, resumen, fecha_ingreso, etapa,
resultado_final, iniciativa, origen FROM bills`. -/
structure BillRow where
  bill_id : String
  titulo : String
  resumen : Option String
  fecha_ingreso : String
  etapa : Option String
  resultado_final : Option String
  iniciativa : Option String
  origen : Option String
deriving DecidableEq

/-- One exported bill object. -/
structure Bill where
  id : String
  titulo : String
  resumen : String
  fecha : String
  estado : String
  tipo : String
  camara : String
  materias : List String
deriving DecidableEq

/-- Status derivation (lines 140-157): the final result, when truthy, is
classified by substring; otherwise a truthy stage is classified; the
default is the in-process label. -/
def mapEstado (resultado etapa : Option String) : String :=
  if pyTruthy resultado then
    let r := pyLower (resultado.getD "")
    if strContains r "aprob" then "Aprobado"
    else if strContains r "rechaz" then "Rechazado"
    else if strContains r "archiv" then "Archivado"
    else "En tramitacion"
  else if pyTruthy etapa then
    let e := pyLower (etapa.getD "")
    if strContains e "primer" then "Primer tramite"
    else if strContains e "segundo" then "Segundo tramite"
    else if strContains e "tercer" then "Tercer tramite"
    else if strContains e "comision" then "En comision"
    else "En tramitacion"
  else "En tramitacion"

/-- Chamber derivation (lines 159-162):
`if origen and "senado" in origen.lower()`. -/
def mapCamara (origen : Option String) : String :=
  if pyTruthy origen && strContains (pyLower (origen.getD "")) "senado" then "Senado"
  else "Diputados"

/-- Result classification written from the spec sentence for the
result-based branch, for comparison with `mapEstado`. -/
def estadoDeResultado (r : String) : String :=
  if strContains (pyLower r) "aprob" then "Aprobado"
  else if strContains (pyLower r) "rechaz" then "Rechazado"
  else if strContains (pyLower r) "archiv" then "Archivado"
  else "En tramitacion"

/-- Stage classification written from the spec sentence for the
stage-based branch, for comparison with `mapEstado`. -/
def estadoDeEtapa (e : String) : String :=
  if strContains (pyLower e) "primer" then "Primer tramite"
  else if strContains (pyLower e) "segundo" then "Segundo tramite"
  else if strContains (pyLower e) "tercer" then "Tercer tramite"
  else if strContains (pyLower e) "comision" then "En comision"
  else "En tramitacion"

/-- The bill object placed into `bills_dict` for one row (materias start
empty and are attached by the second query). -/
def mkBill (r : BillRow) : Bill :=
  { id := r.bill_id
    titulo := r.titulo
    resumen := pyOrStr r.resumen r.titulo
    fecha := r.fecha_ingreso
    estado := mapEstado r.resultado_final r.etapa
    tipo := pyOrStr r.iniciativa "Mocion"
    camara := mapCamara r.origen
    materias := [] }

/-- Python-dict update on an association list: overwrite in place when
the key is present, append at the end otherwise (insertion order). -/
def dictUpd (m : List (κ × β)) (k : κ) (v : β) [BEq κ] : List (κ × β) :=
  match m with
  | [] => [(k, v)]
  | (k₀, v₀) :: rest => if k₀ == k then (k₀, v) :: rest else (k₀, v₀) :: dictUpd rest k v

/-- Comparator embedding `ORDER BY fecha_ingreso DESC` on bills. -/
def billDescLe (a b : BillRow) : Bool := strLeB b.fecha_ingreso a.fecha_ingreso

/-- The `bills_dict` mapping after the first loop: one entry per distinct
bill id, in first-appearance order of the date-descending row list. -/
def billsDictBase (rows : List BillRow) : List (String × Bill) :=
  (sortIns billDescLe rows).foldl (fun d r => dictUpd d r.bill_id (mkBill r)) []

/-- The second loop of `export_bills` (lines 182-184): each
`(bill_id, materia)` join row is appended to the materias of the matching
entry and silently skipped when no entry matches. -/
def attachMaterias (d : List (String × Bill)) (joins : List (String × String)) :
    List (String × Bill) :=
  joins.foldl
    (fun d j =>
      match List.lookup j.1 d with
      | some b => dictUpd d j.1 { b with materias := b.materias ++ [j.2] }
      | none => d)
    d

/-- The exported bill list: `list(bills_dict.values())`. -/
def exportBills (rows : List BillRow) (joins : List (String × String)) : List Bill :=
  (attachMaterias (billsDictBase rows) joins).map Prod.snd

/-! ### Embeddings (`export_embeddings`, lines 198-233)

The stored `embedding` column holds a JSON array of numbers; since the
script decodes it and re-encodes it unchanged, the row carries the
decoded vector. -/

structure EmbeddingRow where
  bill_id : String
  embedding : List ℚ
  model_name : String
  embedding_dimension : Nat
deriving DecidableEq

structure EmbPair where
  billId : String
  embedding : List ℚ
deriving DecidableEq

structure EmbMeta where
  model : String
  dimension : Nat
  count : Nat
deriving DecidableEq

/-- The embedding export: one identity-vector pair per row, plus the
separately returned descriptor with hardcoded model name and dimension. -/
def exportEmbeddings (rows : List EmbeddingRow) : List EmbPair × EmbMeta :=
  let embeddings := rows.map (fun r => EmbPair.mk r.bill_id r.embedding)
  (embeddings, ⟨"all-MiniLM-L6-v2", 384, embeddings.length⟩)

/-! ### Legislators (`export_parlamentarios`, lines 21-113) -/

/-- One row of the legislator query: `SELECT DISTINCT p.mp_uid,
p.nombre_completo, COALESCE(d.nombre_partido, 'Independiente'),
p.url_foto, p.profesion ... ORDER BY p.nombre_completo`.  The partido
column is kept as the nullable joined value; the COALESCE is applied
when the record is built. -/
structure ParlRow where
  mp_uid : String
  nombre_completo : String
  partido : Option String
  url_foto : Option String
  profesion : Option String
deriving DecidableEq

/-- One exported legislator object. -/
structure Parlamentario where
  id : String
  nombre : String
  partido : String
  foto : Option String
  profesion : String
  estadisticas_voto : EstadisticasVoto
  votaciones_recientes : List RecentEntry
deriving DecidableEq

/-! ### Metadata (`export_metadata`, lines 235-285) -/

/-- One row of `SELECT partido_id, nombre_partido, sigla FROM dim_partidos`. -/
structure PartidoRow where
  partido_id : Nat
  nombre_partido : String
  sigla : String
deriving DecidableEq

/-- One value of the `party_stats` mapping. -/
structure PartyStat where
  sigla : String
  miembros : Nat
  cohesion : ℚ
deriving DecidableEq

/-- The `partidos` dictionary keyed by party id (line 243). -/
def partidosDict (rows : List PartidoRow) : List (Nat × (String × String)) :=
  rows.foldl (fun d r => dictUpd d r.partido_id (r.nombre_partido, r.sigla)) []

/-- The `party_stats` mapping seeded from the party directory: one entry
per directory name with its sigla, zero members and cohesion 0.85. -/
def initPartyStats (rows : List PartidoRow) : List (String × PartyStat) :=
  (partidosDict rows).foldl
    (fun ps kv => dictUpd ps kv.2.1 ⟨kv.2.2, 0, (85 : ℚ) / 100⟩) []

/-- One iteration of the member-count loop (lines 256-261): increment the
member count of a known party name, or create a synthetic entry with
empty sigla, one member and cohesion 0.80. -/
def addMember (ps : List (String × PartyStat)) (partido : String) :
    List (String × PartyStat) :=
  match List.lookup partido ps with
  | some st => dictUpd ps partido ⟨st.sigla, st.miembros + 1, st.cohesion⟩
  | none => dictUpd ps partido ⟨"", 1, (80 : ℚ) / 100⟩

/-- The final `party_stats` mapping. -/
def partyStats (rows : List PartidoRow) (parl : List Parlamentario) :
    List (String × PartyStat) :=
  parl.foldl (fun ps p => addMember ps p.partido) (initPartyStats rows)

/-- The exported metadata object. -/
structure Metadata where
  partidos : List (String × PartyStat)
  materias : List String
  total_parlamentarios : Nat
  total_bills : Nat
  periodo : String
deriving DecidableEq

/-! ### The store and the driver (`main`, lines 287-308)

The store is modelled as the results the fixed SQL queries of the script
produce on the database: for a fixed, unchanged SQLite file these results
are a function of the stored data.  Per-legislator queries are keyed by
`mp_uid`. -/

structure Store where
  parlRows : List ParlRow
  votoGroupsOf : String → List (String × Nat)
  recentRowsOf : String → List RecentRow
  billRows : List BillRow
  billMateriaJoins : List (String × String)
  embeddingRows : List EmbeddingRow
  partidoRows : List PartidoRow
  materiaNames : List String

/-- One exported legislator record as built in the first exporter. -/
def mkParlamentario (s : Store) (r : ParlRow) : Parlamentario :=
  { id := r.mp_uid
    nombre := r.nombre_completo
    partido := r.partido.getD "Independiente"
    foto := r.url_foto
    profesion := pyOrStr r.profesion "No especificada"
    estadisticas_voto := mkEstadisticas (s.votoGroupsOf r.mp_uid)
    votaciones_recientes := recentVotes (s.recentRowsOf r.mp_uid) }

def exportParlamentarios (s : Store) : List Parlamentario :=
  s.parlRows.map (mkParlamentario s)

/-- The metadata export, given the already-exported legislators and
bills, embedding `SELECT DISTINCT nombre FROM dim_materias ORDER BY
nombre` and the `[:100]` cut. -/
def exportMetadata (s : Store) (parl : List Parlamentario) (bills : List Bill) :
    Metadata :=
  { partidos := partyStats s.partidoRows parl
    materias := (sortIns strLeB s.materiaNames.dedup).take 100
    total_parlamentarios := parl.length
    total_bills := bills.length
    periodo := "2022-2026" }

/-- The contents of the four output files (plus the returned embedding
descriptor, which the driver receives but never writes). -/
structure ExportOutput where
  diputados : List Parlamentario
  bills : List Bill
  embeddings : List EmbPair
  embMeta : EmbMeta
  metadata : Metadata
deriving DecidableEq

/-- The whole run of `main`: the four exporters in sequence. -/
def exportAll (s : Store) : ExportOutput :=
  let parl := exportParlamentarios s
  let bills := exportBills s.billRows s.billMateriaJoins
  let embPair := exportEmbeddings s.embeddingRows
  { diputados := parl
    bills := bills
    embeddings := embPair.1
    embMeta := embPair.2
    metadata := exportMetadata s parl bills }

/-- A store with no rows at all, used to instantiate theorems. -/
def emptyStore : Store :=
  { parlRows := []
    votoGroupsOf := fun _ => []
    recentRowsOf := fun _ => []
    billRows := []
    billMateriaJoins := []
    embeddingRows := []
    partidoRows := []
    materiaNames := [] }

/-! ### Concrete inputs used to instantiate the theorems -/

def parlRowC2 : ParlRow := ⟨"mp1", "Ana Rojas", some "PS", none, none⟩

/-- Store holding one legislator with vote groups for three `a favor`,
one `en contra` and one unrecognized `nulo` vote. -/
def storeC2 : Store :=
  { emptyStore with
    parlRows := [parlRowC2]
    votoGroupsOf := fun _ => [("a favor", 3), ("en contra", 1), ("nulo", 1)] }

/-- A recent-vote row whose stored title has 101 characters. -/
def recentRowLong : RecentRow :=
  ⟨"b1", String.mk (List.replicate 101 'a'), "A Favor", "2024-05-01"⟩

def recentRowShort : RecentRow := ⟨"b2", "Corto", "En Contra", "2024-06-01"⟩

/-- Store holding one legislator with two recent-vote rows, given in
ascending date order so that the export must reorder them. -/
def storeRecent : Store :=
  { emptyStore with
    parlRows := [parlRowC2]
    recentRowsOf := fun _ => [recentRowLong, recentRowShort] }

/-- A bill row with both a final result and a stage. -/
def billRowRes : BillRow :=
  ⟨"b1", "T", none, "2024-01-01", some "Primer tramite", some "Rechazado en general",
    none, none⟩

/-- A bill row with no final result and a stage. -/
def billRowEtapa : BillRow :=
  ⟨"b2", "T", none, "2024-01-02", some "Segundo tramite constitucional", none, none, none⟩

/-- A bill row with neither a final result nor a stage. -/
def billRowNone : BillRow := ⟨"b3", "T", none, "2024-01-03", none, none, none, none⟩

/-- A legislator record with empty statistics, enough for the metadata
exporter, which only reads the partido field. -/
def plainParl (uid partido : String) : Parlamentario :=
  ⟨uid, uid, partido, none, "No especificada", ⟨0, 0, 0, 0, 0⟩, []⟩

def psRow : PartidoRow := ⟨1, "Partido Socialista", "PS"⟩

def partidoRowsW : List PartidoRow := [psRow, ⟨2, "Renovacion Nacional", "RN"⟩]

def nuevoParl : Parlamentario := plainParl "m2" "Nuevo Partido"

/-- Two members of a directory party and one member of a party that the
directory does not know. -/
def parlListW : List Parlamentario :=
  [plainParl "m1" "Partido Socialista", nuevoParl, plainParl "m3" "Partido Socialista"]

def billRowsW : List BillRow := [billRowRes]

/-- One join row for the stored bill and one for an unknown bill id. -/
def joinsW : List (String × String) := [("b1", "Educacion"), ("bX", "Salud")]

/-- The bill exported from `billRowsW` with `joinsW` attached. -/
def billW : Bill :=
  { id := "b1", titulo := "T", resumen := "T", fecha := "2024-01-01",
    estado := "Rechazado", tipo := "Mocion", camara := "Diputados",
    materias := ["Educacion"] }

def embRowsA : List EmbeddingRow := [⟨"b1", [1, 2], "all-MiniLM-L6-v2", 384⟩]

/-- A row list of the same length whose stored model name and dimension
differ from the hardcoded descriptor constants. -/
def embRowsB : List EmbeddingRow := [⟨"b2", [], "other-model", 7⟩]

end ExportData

/-! ## Theorems -/

namespace ExportData

/-! ### Order lemmas for the `ORDER BY` embedding -/

theorem charsLe_total (a b : List Char) : charsLe a b = true ∨ charsLe b a = true := by
  induction a generalizing b with
  | nil => left; rfl
  | cons x xs ih =>
    cases b with
    | nil => right; rfl
    | cons y ys =>
      by_cases hxy : x < y
      · left; simp [charsLe, hxy]
      · by_cases hyx : y < x
        · right; simp [charsLe, hyx]
        · rcases ih ys with h | h
          · left; simp [charsLe, hxy, hyx, h]
          · right; simp [charsLe, hyx, hxy, h]

theorem charsLe_trans (a b c : List Char) (hab : charsLe a b = true)
    (hbc : charsLe b c = true) : charsLe a c = true := by
  induction a generalizing b c with
  | nil => rfl
  | cons x xs ih =>
    cases b with
    | nil => simp [charsLe] at hab
    | cons y ys =>
      cases c with
      | nil => simp [charsLe] at hbc
      | cons z zs =>
        by_cases hxy : x < y
        · by_cases hyz : y < z
          · simp [charsLe, lt_trans hxy hyz]
          · have hzy : ¬ z < y := by
              simp only [charsLe, hyz] at hbc
              intro h; simp [h] at hbc
            have hyzeq : y = z := le_antisymm (not_lt.mp hzy) (not_lt.mp hyz)
            subst hyzeq
            simp [charsLe, hxy]
        · have hyx : ¬ y < x := by
            simp only [charsLe, hxy] at hab
            intro h; simp [h] at hab
          have hxyeq : x = y := le_antisymm (not_lt.mp hyx) (not_lt.mp hxy)
          subst hxyeq
          have hab' : charsLe xs ys = true := by
            simpa [charsLe, hxy, hyx] using hab
          by_cases hyz : x < z
          · simp [charsLe, hyz]
          · have hzy : ¬ z < x := by
              simp only [charsLe, hyz] at hbc
              intro h; simp [h] at hbc
            have hbc' : charsLe ys zs = true := by
              simpa [charsLe, hyz, hzy] using hbc
            simp [charsLe, hyz, hzy, ih ys zs hab' hbc']

theorem insOrd_perm (le : α → α → Bool) (a : α) (l : List α) :
    (insOrd le a l).Perm (a :: l) := by
  induction l with
  | nil => exact List.Perm.refl _
  | cons b bs ih =>
    by_cases h : le a b
    · simp [insOrd, h]
    · simp only [insOrd, h, Bool.false_eq_true, ite_false]
      exact ((ih.cons b).trans (List.Perm.swap a b bs))

theorem sortIns_perm (le : α → α → Bool) (l : List α) :
    (sortIns le l).Perm l := by
  induction l with
  | nil => exact List.Perm.refl _
  | cons a as ih => exact (insOrd_perm le a (sortIns le as)).trans (ih.cons a)

theorem mem_insOrd (le : α → α → Bool) (a x : α) (l : List α) :
    x ∈ insOrd le a l ↔ x = a ∨ x ∈ l := by
  have h := (insOrd_perm le a l).mem_iff (a := x)
  simpa using h

theorem pairwise_insOrd (le : α → α → Bool)
    (htot : ∀ u v : α, le u v = true ∨ le v u = true)
    (htrans : ∀ u v w : α, le u v = true → le v w = true → le u w = true)
    (a : α) (l : List α) (hl : l.Pairwise (fun u v => le u v = true)) :
    (insOrd le a l).Pairwise (fun u v => le u v = true) := by
  induction l with
  | nil => simp [insOrd]
  | cons b bs ih =>
    rcases List.pairwise_cons.mp hl with ⟨hb, hbs⟩
    by_cases h : le a b
    · simp only [insOrd, h, if_true]
      refine List.pairwise_cons.mpr ⟨?_, hl⟩
      intro x hx
      rcases List.mem_cons.mp hx with rfl | hx
      · exact h
      · exact htrans a b x h (hb x hx)
    · have hba : le b a = true := (htot a b).resolve_left (by simpa using h)
      simp only [insOrd, h, Bool.false_eq_true, ite_false]
      refine List.pairwise_cons.mpr ⟨?_, ih hbs⟩
      intro x hx
      rcases (mem_insOrd le a x bs).mp hx with rfl | hx
      · exact hba
      · exact hb x hx

theorem pairwise_sortIns (le : α → α → Bool)
    (htot : ∀ u v : α, le u v = true ∨ le v u = true)
    (htrans : ∀ u v w : α, le u v = true → le v w = true → le u w = true)
    (l : List α) : (sortIns le l).Pairwise (fun u v => le u v = true) := by
  induction l with
  | nil => simp [sortIns]
  | cons a as ih => exact pairwise_insOrd le htot htrans a (sortIns le as) ih

theorem fechaDescLe_total (u v : RecentRow) :
    fechaDescLe u v = true ∨ fechaDescLe v u = true := by
  unfold fechaDescLe strLeB
  rcases charsLe_total v.fecha.data u.fecha.data with h | h
  · left; exact h
  · right; exact h

theorem fechaDescLe_trans (u v w : RecentRow) (huv : fechaDescLe u v = true)
    (hvw : fechaDescLe v w = true) : fechaDescLe u w = true := by
  unfold fechaDescLe strLeB at *
  exact charsLe_trans _ _ _ hvw huv

/-! ### Vote statistics -/

/-- C1 (code bug): the classification loop assigns each matching group
count into the bucket instead of accumulating, so when two distinct raw
labels (here the case variants of `a favor`) both map to the favor
category, the exported tally keeps only the last assigned group count
(1, in either group order) although two vote records match the favor
substring. -/
theorem vote_tally_overwritten_on_split_labels :
    IsGroupRows ["A favor", "a favor"] [("A favor", 1), ("a favor", 1)] ∧
    (voteStats [("A favor", 1), ("a favor", 1)]).a_favor = 1 ∧
    (voteStats [("a favor", 1), ("A favor", 1)]).a_favor = 1 ∧
    (["A favor", "a favor"].countP catFavor) = 2 := by
  decide

/-- Folding the classification loop over group rows drawn from the C2
scenario: the favor bucket ends at 3 exactly when its group row occurs,
the contra bucket at 1, and the other buckets keep their start values. -/
theorem foldl_classify_scenario (groups : List (String × Nat)) (s : VoteStats)
    (h : ∀ g ∈ groups,
      g = ("a favor", 3) ∨ g = ("en contra", 1) ∨ g = ("nulo", 1)) :
    groups.foldl classifyStep s =
      { a_favor := if ("a favor", 3) ∈ groups then 3 else s.a_favor
        en_contra := if ("en contra", 1) ∈ groups then 1 else s.en_contra
        abstencion := s.abstencion
        pareo := s.pareo } := by
  induction groups generalizing s with
  | nil => simp
  | cons g rest ih =>
    have hrest : ∀ x ∈ rest, x = ("a favor", 3) ∨ x = ("en contra", 1) ∨ x = ("nulo", 1) :=
      fun x hx => h x (List.mem_cons_of_mem g hx)
    have hstepA : ∀ t : VoteStats, classifyStep t ("a favor", 3) = { t with a_favor := 3 } := by
      intro t
      have hc : strContains (replaceSpace (pyLower "a favor")) "favor" = true := by decide
      simp [classifyStep, hc]
    have hstepE : ∀ t : VoteStats,
        classifyStep t ("en contra", 1) = { t with en_contra := 1 } := by
      intro t
      have hc1 : strContains (replaceSpace (pyLower "en contra")) "favor" = false := by decide
      have hc2 : strContains (replaceSpace (pyLower "en contra")) "contra" = true := by decide
      simp [classifyStep, hc1, hc2]
    have hstepN : ∀ t : VoteStats, classifyStep t ("nulo", 1) = t := by
      intro t
      have hc1 : strContains (replaceSpace (pyLower "nulo")) "favor" = false := by decide
      have hc2 : strContains (replaceSpace (pyLower "nulo")) "contra" = false := by decide
      have hc3 : strContains (replaceSpace (pyLower "nulo")) "absten" = false := by decide
      have hc4 : strContains (replaceSpace (pyLower "nulo")) "pareo" = false := by decide
      simp [classifyStep, hc1, hc2, hc3, hc4]
    have hAE : ¬ ((("a favor", 3) : String × Nat) = ("en contra", 1)) := by decide
    have hEA : ¬ ((("en contra", 1) : String × Nat) = ("a favor", 3)) := by decide
    have hAN : ¬ ((("a favor", 3) : String × Nat) = ("nulo", 1)) := by decide
    have hEN : ¬ ((("en contra", 1) : String × Nat) = ("nulo", 1)) := by decide
    rcases h g (List.mem_cons_self g rest) with rfl | rfl | rfl
    · rw [List.foldl_cons, hstepA, ih _ hrest]
      simp [List.mem_cons, hEA]
    · rw [List.foldl_cons, hstepE, ih _ hrest]
      simp [List.mem_cons, hAE]
    · rw [List.foldl_cons, hstepN, ih _ hrest]
      simp [List.mem_cons, hAN, hEN]

/-- C2: a store with one legislator whose vote records are exactly three
`a favor`, one `en contra` and one unrecognized `nulo` yields
estadisticas_voto with total 4, a_favor 3, en_contra 1, abstencion 0 and
pareo 0, in whatever order the SQL engine returns the group rows. -/
theorem vote_stats_scenario (s : Store) (r : ParlRow)
    (hrows : s.parlRows = [r])
    (hg : IsGroupRows ["a favor", "a favor", "a favor", "en contra", "nulo"]
      (s.votoGroupsOf r.mp_uid)) :
    (exportParlamentarios s).map Parlamentario.estadisticas_voto =
      [⟨4, 3, 1, 0, 0⟩] := by
  obtain ⟨hnd, hcnt, hcov⟩ := hg
  have hshape : ∀ g ∈ s.votoGroupsOf r.mp_uid,
      g = ("a favor", 3) ∨ g = ("en contra", 1) ∨ g = ("nulo", 1) := by
    intro g hgm
    obtain ⟨hin, hc⟩ := hcnt g hgm
    obtain ⟨gl, gc⟩ := g
    have hone : gl = "a favor" ∨ gl = "en contra" ∨ gl = "nulo" := by
      simpa using hin
    have hc2 : gc = List.count gl ["a favor", "a favor", "a favor", "en contra", "nulo"] := hc
    rcases hone with h1 | h1 | h1
    · subst h1
      left
      have h3 : gc = 3 := hc2.trans (by decide)
      rw [h3]
    · subst h1
      right; left
      have h3 : gc = 1 := hc2.trans (by decide)
      rw [h3]
    · subst h1
      right; right
      have h3 : gc = 1 := hc2.trans (by decide)
      rw [h3]
  have hA : ("a favor", 3) ∈ s.votoGroupsOf r.mp_uid := by
    have hmap := hcov "a favor" (by simp)
    obtain ⟨g, hgm, hfst⟩ := List.mem_map.mp hmap
    rcases hshape g hgm with rfl | rfl | rfl
    · exact hgm
    · exact absurd hfst (by decide)
    · exact absurd hfst (by decide)
  have hE : ("en contra", 1) ∈ s.votoGroupsOf r.mp_uid := by
    have hmap := hcov "en contra" (by simp)
    obtain ⟨g, hgm, hfst⟩ := List.mem_map.mp hmap
    rcases hshape g hgm with rfl | rfl | rfl
    · exact absurd hfst (by decide)
    · exact hgm
    · exact absurd hfst (by decide)
  have hvs : voteStats (s.votoGroupsOf r.mp_uid) = ⟨3, 1, 0, 0⟩ := by
    unfold voteStats
    rw [foldl_classify_scenario _ _ hshape]
    simp [hA, hE]
  simp [exportParlamentarios, hrows, mkParlamentario, mkEstadisticas, hvs, statsTotal]

/-- Witness: the C2 scenario run at the concrete store `storeC2`. -/
theorem vote_stats_scenario_witness :
    storeC2.parlRows = [parlRowC2] ∧
    IsGroupRows ["a favor", "a favor", "a favor", "en contra", "nulo"]
      (storeC2.votoGroupsOf parlRowC2.mp_uid) ∧
    (exportParlamentarios storeC2).map Parlamentario.estadisticas_voto =
      [⟨4, 3, 1, 0, 0⟩] :=
  ⟨rfl, by decide, vote_stats_scenario storeC2 parlRowC2 rfl (by decide)⟩

/-! ### Recent votes -/

/-- C6: every exported legislator carries a recent-vote history of at
most 20 entries, ordered by session date descending (each entry date is
at least the next one in the byte order SQLite sorts TEXT by). -/
theorem recent_votes_bounded_sorted (s : Store) (p : Parlamentario)
    (hp : p ∈ exportParlamentarios s) :
    p.votaciones_recientes.length ≤ 20 ∧
    p.votaciones_recientes.Pairwise (fun a b => strLeB b.fecha a.fecha = true) := by
  obtain ⟨r, hr, rfl⟩ := List.mem_map.mp hp
  constructor
  · show (recentVotes (s.recentRowsOf r.mp_uid)).length ≤ 20
    unfold recentVotes
    rw [List.length_map, List.length_take]
    exact Nat.min_le_left _ _
  · show (recentVotes (s.recentRowsOf r.mp_uid)).Pairwise
      (fun a b => strLeB b.fecha a.fecha = true)
    unfold recentVotes
    rw [List.pairwise_map]
    have hs := pairwise_sortIns fechaDescLe fechaDescLe_total fechaDescLe_trans
      (s.recentRowsOf r.mp_uid)
    exact List.Pairwise.sublist (List.take_sublist 20 _) hs

set_option maxRecDepth 8000 in
/-- Witness: the bounded sorted history at the concrete store
`storeRecent`, whose two rows arrive in ascending date order. -/
theorem recent_votes_bounded_sorted_witness :
    mkParlamentario storeRecent parlRowC2 ∈ exportParlamentarios storeRecent ∧
    (mkParlamentario storeRecent parlRowC2).votaciones_recientes.length ≤ 20 ∧
    (mkParlamentario storeRecent parlRowC2).votaciones_recientes.Pairwise
      (fun a b => strLeB b.fecha a.fecha = true) :=
  ⟨by decide,
    (recent_votes_bounded_sorted storeRecent _ (by decide)).1,
    (recent_votes_bounded_sorted storeRecent _ (by decide)).2⟩

/-- C5: every exported recent-vote entry is built from a store row for
the same legislator; its title is the first 100 characters of the stored
title followed by an ellipsis when that title is longer than 100
characters, and the stored title verbatim otherwise. -/
theorem recent_titulo_truncation (s : Store) (p : Parlamentario)
    (hp : p ∈ exportParlamentarios s) (e : RecentEntry)
    (he : e ∈ p.votaciones_recientes) :
    ∃ r ∈ s.recentRowsOf p.id,
      (100 < r.titulo.length → e.titulo = r.titulo.take 100 ++ "...") ∧
      (r.titulo.length ≤ 100 → e.titulo = r.titulo) := by
  obtain ⟨q, hq, rfl⟩ := List.mem_map.mp hp
  have he2 : e ∈ recentVotes (s.recentRowsOf q.mp_uid) := he
  unfold recentVotes at he2
  obtain ⟨r, hr, rfl⟩ := List.mem_map.mp he2
  refine ⟨r, ?_, ?_, ?_⟩
  · have h1 : r ∈ sortIns fechaDescLe (s.recentRowsOf q.mp_uid) :=
      List.Sublist.mem hr (List.take_sublist 20 _)
    exact ((sortIns_perm fechaDescLe _).mem_iff).mp h1
  · intro hlen
    show truncTitulo r.titulo = r.titulo.take 100 ++ "..."
    unfold truncTitulo
    rw [if_pos hlen]
  · intro hlen
    show truncTitulo r.titulo = r.titulo
    unfold truncTitulo
    rw [if_neg (by omega)]

set_option maxRecDepth 8000 in
/-- Witness: the truncation read off the concrete store `storeRecent`,
whose first row stores a 101-character title. -/
theorem recent_titulo_truncation_witness :
    mkParlamentario storeRecent parlRowC2 ∈ exportParlamentarios storeRecent ∧
    mkRecentEntry recentRowLong ∈
      (mkParlamentario storeRecent parlRowC2).votaciones_recientes ∧
    (∃ r ∈ storeRecent.recentRowsOf (mkParlamentario storeRecent parlRowC2).id,
      (100 < r.titulo.length →
        (mkRecentEntry recentRowLong).titulo = r.titulo.take 100 ++ "...") ∧
      (r.titulo.length ≤ 100 → (mkRecentEntry recentRowLong).titulo = r.titulo)) :=
  ⟨by decide, by decide,
    recent_titulo_truncation storeRecent _ (by decide) _ (by decide)⟩

/-! ### Bill status and chamber -/

/-- C3: status assignment follows the strict priority result over stage
over default: a truthy final result is classified by the result
substrings with the stage ignored, a falsy result with a truthy stage is
classified by the stage substrings, and otherwise the in-process default
applies; in particular the result `Aprobado por unanimidad` yields the
status `Aprobado` for every stage value. -/
theorem estado_priority (r : BillRow) (eo : Option String) :
    (pyTruthy r.resultado_final = true →
      (mkBill r).estado = estadoDeResultado (r.resultado_final.getD "") ∧
      (mkBill { r with etapa := eo }).estado = (mkBill r).estado) ∧
    (pyTruthy r.resultado_final = false → pyTruthy r.etapa = true →
      (mkBill r).estado = estadoDeEtapa (r.etapa.getD "")) ∧
    (pyTruthy r.resultado_final = false → pyTruthy r.etapa = false →
      (mkBill r).estado = "En tramitacion") ∧
    (mkBill { r with resultado_final := some "Aprobado por unanimidad" }).estado =
      "Aprobado" := by
  refine ⟨?_, ?_, ?_, ?_⟩
  · intro h
    constructor
    · show mapEstado r.resultado_final r.etapa = _
      unfold mapEstado estadoDeResultado
      rw [if_pos h]
    · show mapEstado r.resultado_final eo = mapEstado r.resultado_final r.etapa
      unfold mapEstado
      rw [if_pos h, if_pos h]
  · intro h1 h2
    show mapEstado r.resultado_final r.etapa = _
    unfold mapEstado estadoDeEtapa
    rw [if_neg (by simp [h1]), if_pos h2]
  · intro h1 h2
    show mapEstado r.resultado_final r.etapa = _
    unfold mapEstado
    rw [if_neg (by simp [h1]), if_neg (by simp [h2])]
  · show mapEstado (some "Aprobado por unanimidad") r.etapa = "Aprobado"
    rfl

/-- Witness: the status priority applied to the three concrete bill rows
`billRowRes`, `billRowEtapa` and `billRowNone`. -/
theorem estado_priority_witness :
    (pyTruthy billRowRes.resultado_final = true ∧
      (mkBill billRowRes).estado = estadoDeResultado (billRowRes.resultado_final.getD "") ∧
      (mkBill { billRowRes with etapa := some "Tercer tramite" }).estado =
        (mkBill billRowRes).estado) ∧
    (mkBill billRowEtapa).estado = estadoDeEtapa (billRowEtapa.etapa.getD "") ∧
    (mkBill billRowNone).estado = "En tramitacion" ∧
    (mkBill { billRowNone with resultado_final := some "Aprobado por unanimidad" }).estado =
      "Aprobado" :=
  ⟨⟨by decide,
      ((estado_priority billRowRes (some "Tercer tramite")).1 (by decide)).1,
      ((estado_priority billRowRes (some "Tercer tramite")).1 (by decide)).2⟩,
    (estado_priority billRowEtapa none).2.1 (by decide) (by decide),
    (estado_priority billRowNone none).2.2.1 (by decide) (by decide),
    (estado_priority billRowNone none).2.2.2⟩

/-- C4: the chamber label is `Senado` exactly when the origin field is
non-null and its lower-cased value contains `senado`; in every other
case, the null origin included, the label is `Diputados`. -/
theorem camara_senado_iff (o : Option String) :
    (mapCamara o = "Senado" ↔
      ∃ t, o = some t ∧ strContains (pyLower t) "senado" = true) ∧
    (mapCamara o = "Senado" ∨ mapCamara o = "Diputados") := by
  cases o with
  | none =>
    refine ⟨⟨fun h => absurd h (by decide), ?_⟩, Or.inr rfl⟩
    rintro ⟨t, ht, _⟩
    exact Option.noConfusion ht
  | some t =>
    by_cases hc : strContains (pyLower t) "senado" = true
    · have hne : ¬ t = "" := by
        intro h0
        subst h0
        exact absurd hc (by decide)
      have hcond : (pyTruthy (some t) && strContains (pyLower t) "senado") = true := by
        simp [pyTruthy, hc, hne]
      have hsen : mapCamara (some t) = "Senado" := by
        unfold mapCamara
        simp only [Option.getD_some]
        rw [if_pos hcond]
      exact ⟨⟨fun _ => ⟨t, rfl, hc⟩, fun _ => hsen⟩, Or.inl hsen⟩
    · have hcond : ¬ ((pyTruthy (some t) && strContains (pyLower t) "senado") = true) := by
        rw [Bool.and_eq_true]
        intro h
        exact hc h.2
      have hdip : mapCamara (some t) = "Diputados" := by
        unfold mapCamara
        simp only [Option.getD_some]
        rw [if_neg hcond]
      refine ⟨⟨fun h => ?_, ?_⟩, Or.inr hdip⟩
      · rw [hdip] at h
        exact absurd h (by decide)
      · rintro ⟨u, hu, hcu⟩
        obtain rfl : t = u := Option.some.inj hu
        exact absurd hcu hc

end ExportData


namespace ExportData

/-! ### Python dict lemmas -/

theorem lookup_dictUpd_self [BEq κ] [LawfulBEq κ] (m : List (κ × β)) (k : κ) (v : β) :
    List.lookup k (dictUpd m k v) = some v := by
  induction m with
  | nil => simp [dictUpd, List.lookup]
  | cons e rest ih =>
    obtain ⟨k0, v0⟩ := e
    by_cases h : k0 = k
    · subst h
      simp [dictUpd, List.lookup]
    · have hb : (k0 == k) = false := beq_eq_false_iff_ne.mpr h
      have hb2 : (k == k0) = false := beq_eq_false_iff_ne.mpr (Ne.symm h)
      simp [dictUpd, List.lookup, hb, hb2, ih]

theorem lookup_dictUpd_other [BEq κ] [LawfulBEq κ] (m : List (κ × β)) (k k2 : κ) (v : β)
    (hne : k2 ≠ k) : List.lookup k2 (dictUpd m k v) = List.lookup k2 m := by
  induction m with
  | nil =>
    have hb : (k2 == k) = false := beq_eq_false_iff_ne.mpr hne
    simp [dictUpd, List.lookup, hb]
  | cons e rest ih =>
    obtain ⟨k0, v0⟩ := e
    by_cases h : k0 = k
    · subst h
      have hb : (k2 == k0) = false := beq_eq_false_iff_ne.mpr hne
      simp [dictUpd, List.lookup, hb]
    · have hb : (k0 == k) = false := beq_eq_false_iff_ne.mpr h
      by_cases h2 : k2 = k0
      · subst h2
        simp [dictUpd, List.lookup, hb]
      · have hb2 : (k2 == k0) = false := beq_eq_false_iff_ne.mpr h2
        simp [dictUpd, List.lookup, hb, hb2, ih]

theorem dictUpd_append [BEq κ] [LawfulBEq κ] (m : List (κ × β)) (k : κ) (v : β)
    (hk : k ∉ m.map Prod.fst) : dictUpd m k v = m ++ [(k, v)] := by
  induction m with
  | nil => rfl
  | cons e rest ih =>
    obtain ⟨k0, v0⟩ := e
    have h0 : ¬ k0 = k := by
      intro h
      exact hk (by simp [h])
    have hb : (k0 == k) = false := beq_eq_false_iff_ne.mpr h0
    have hk2 : k ∉ rest.map Prod.fst := fun hx => hk (by simp [hx])
    simp [dictUpd, hb, ih hk2]

/-- Folding dict updates with pairwise-distinct fresh keys appends the
corresponding entries in order. -/
theorem foldl_dictUpd_fresh [BEq κ] [LawfulBEq κ] (kf : α → κ) (f : α → β) :
    ∀ (l : List α) (m : List (κ × β)), (l.map kf).Nodup →
      (∀ a ∈ l, kf a ∉ m.map Prod.fst) →
      l.foldl (fun d a => dictUpd d (kf a) (f a)) m = m ++ l.map (fun a => (kf a, f a)) := by
  intro l
  induction l with
  | nil => intro m _ _; simp
  | cons a as ih =>
    intro m hnd hfresh
    have hnd2 : (as.map kf).Nodup := by
      rw [List.map_cons] at hnd
      exact (List.nodup_cons.mp hnd).2
    have hafresh : kf a ∉ (as.map kf) := by
      rw [List.map_cons] at hnd
      exact (List.nodup_cons.mp hnd).1
    rw [List.foldl_cons, dictUpd_append m (kf a) (f a) (hfresh a (List.mem_cons_self a as))]
    rw [ih (m ++ [(kf a, f a)]) hnd2 ?_]
    · simp
    · intro b hb
      rw [List.map_append, List.mem_append]
      rintro (hx | hx)
      · exact hfresh b (List.mem_cons_of_mem a hb) hx
      · have hbk : kf b = kf a := by simpa using hx
        exact hafresh (hbk ▸ List.mem_map_of_mem kf hb)

theorem lookup_map_of_nodup [BEq κ] [LawfulBEq κ] (kf : α → κ) (f : α → β) (l : List α)
    (hnd : (l.map kf).Nodup) (a : α) (ha : a ∈ l) :
    List.lookup (kf a) (l.map fun x => (kf x, f x)) = some (f a) := by
  induction l with
  | nil => cases ha
  | cons x xs ih =>
    rw [List.map_cons] at hnd
    obtain ⟨hx1, hx2⟩ := List.nodup_cons.mp hnd
    rcases List.mem_cons.mp ha with rfl | ha2
    · simp [List.lookup]
    · have hne : kf a ≠ kf x := by
        intro h
        exact hx1 (h ▸ List.mem_map_of_mem kf ha2)
      have hb : (kf a == kf x) = false := beq_eq_false_iff_ne.mpr hne
      simp [List.lookup, hb, ih hx2 ha2]

theorem lookup_map_none [BEq κ] [LawfulBEq κ] (kf : α → κ) (f : α → β) (l : List α)
    (k : κ) (hk : k ∉ l.map kf) :
    List.lookup k (l.map fun x => (kf x, f x)) = none := by
  induction l with
  | nil => rfl
  | cons x xs ih =>
    have hne : k ≠ kf x := by
      intro h
      exact hk (by simp [h])
    have hb : (k == kf x) = false := beq_eq_false_iff_ne.mpr hne
    have hk2 : k ∉ xs.map kf := fun hx => hk (by simp [hx])
    simp [List.lookup, hb, ih hk2]

/-! ### Party statistics -/

/-- With distinct party ids and distinct party names, the seeded
party_stats mapping is one entry per directory row, in order. -/
theorem initPartyStats_eq (rows : List PartidoRow)
    (hIds : (rows.map PartidoRow.partido_id).Nodup)
    (hNames : (rows.map PartidoRow.nombre_partido).Nodup) :
    initPartyStats rows =
      rows.map (fun r => (r.nombre_partido, (⟨r.sigla, 0, (85 : ℚ) / 100⟩ : PartyStat))) := by
  have h1 : partidosDict rows =
      rows.map (fun r => (r.partido_id, (r.nombre_partido, r.sigla))) := by
    have := foldl_dictUpd_fresh (fun r : PartidoRow => r.partido_id)
      (fun r : PartidoRow => (r.nombre_partido, r.sigla)) rows [] hIds (by simp)
    simpa [partidosDict] using this
  unfold initPartyStats
  rw [h1, List.foldl_map]
  have := foldl_dictUpd_fresh (fun r : PartidoRow => r.nombre_partido)
    (fun r : PartidoRow => (⟨r.sigla, 0, (85 : ℚ) / 100⟩ : PartyStat)) rows [] hNames (by simp)
  simpa using this

theorem lookup_addMember_other (ps : List (String × PartyStat)) (k name : String)
    (hne : name ≠ k) : List.lookup name (addMember ps k) = List.lookup name ps := by
  unfold addMember
  cases h : List.lookup k ps with
  | none => rw [lookup_dictUpd_other ps k name _ hne]
  | some st => rw [lookup_dictUpd_other ps k name _ hne]

/-- Folding the member loop over legislators adds, to an entry already
present, exactly the number of legislators carrying that name. -/
theorem lookup_foldl_addMember_some :
    ∀ (parl : List Parlamentario) (ps : List (String × PartyStat)) (name : String)
      (st : PartyStat), List.lookup name ps = some st →
      List.lookup name (parl.foldl (fun d p => addMember d p.partido) ps) =
        some ⟨st.sigla, st.miembros + parl.countP (fun p => p.partido == name),
          st.cohesion⟩ := by
  intro parl
  induction parl with
  | nil =>
    intro ps name st h
    simpa using h
  | cons p rest ih =>
    intro ps name st h
    rw [List.foldl_cons]
    by_cases hp : p.partido = name
    · have h2 : List.lookup p.partido ps = some st := by rw [hp]; exact h
      have hstep : addMember ps p.partido =
          dictUpd ps p.partido ⟨st.sigla, st.miembros + 1, st.cohesion⟩ := by
        unfold addMember
        rw [h2]
      have h3 : List.lookup name (addMember ps p.partido) =
          some ⟨st.sigla, st.miembros + 1, st.cohesion⟩ := by
        rw [hstep, hp, lookup_dictUpd_self]
      rw [ih _ _ _ h3]
      have hb : (p.partido == name) = true := beq_iff_eq.mpr hp
      have hcnt : (p :: rest).countP (fun q => q.partido == name) =
          rest.countP (fun q => q.partido == name) + 1 := by
        rw [List.countP_cons]
        simp [hb]
      rw [hcnt]
      have harith : st.miembros + 1 + rest.countP (fun q => q.partido == name) =
          st.miembros + (rest.countP (fun q => q.partido == name) + 1) := by omega
      rw [harith]
    · have h3 : List.lookup name (addMember ps p.partido) = some st := by
        rw [lookup_addMember_other ps p.partido name (fun hx => hp hx.symm)]
        exact h
      rw [ih _ _ _ h3]
      have hb : (p.partido == name) = false := beq_eq_false_iff_ne.mpr hp
      rw [List.countP_cons, hb]
      simp

/-- Folding the member loop over legislators creates, for an absent name
that some legislator carries, the synthetic entry counting exactly the
legislators with that name. -/
theorem lookup_foldl_addMember_none :
    ∀ (parl : List Parlamentario) (ps : List (String × PartyStat)) (name : String),
      List.lookup name ps = none → (∃ p ∈ parl, p.partido = name) →
      List.lookup name (parl.foldl (fun d p => addMember d p.partido) ps) =
        some ⟨"", parl.countP (fun p => p.partido == name), (80 : ℚ) / 100⟩ := by
  intro parl
  induction parl with
  | nil =>
    intro ps name _ hex
    obtain ⟨p, hp, _⟩ := hex
    cases hp
  | cons p rest ih =>
    intro ps name h hex
    rw [List.foldl_cons]
    by_cases hp : p.partido = name
    · have h2 : List.lookup p.partido ps = none := by rw [hp]; exact h
      have hstep : addMember ps p.partido =
          dictUpd ps p.partido ⟨"", 1, (80 : ℚ) / 100⟩ := by
        unfold addMember
        rw [h2]
      have h3 : List.lookup name (addMember ps p.partido) =
          some ⟨"", 1, (80 : ℚ) / 100⟩ := by
        rw [hstep, hp, lookup_dictUpd_self]
      rw [lookup_foldl_addMember_some rest _ _ _ h3]
      have hb : (p.partido == name) = true := beq_iff_eq.mpr hp
      have hcnt : (p :: rest).countP (fun q => q.partido == name) =
          rest.countP (fun q => q.partido == name) + 1 := by
        rw [List.countP_cons]
        simp [hb]
      rw [hcnt]
      have harith : 1 + rest.countP (fun q => q.partido == name) =
          rest.countP (fun q => q.partido == name) + 1 := by omega
      rw [harith]
    · have h3 : List.lookup name (addMember ps p.partido) = none := by
        rw [lookup_addMember_other ps p.partido name (fun hx => hp hx.symm)]
        exact h
      have hex2 : ∃ q ∈ rest, q.partido = name := by
        obtain ⟨q, hq, hqn⟩ := hex
        rcases List.mem_cons.mp hq with rfl | hq2
        · exact absurd hqn hp
        · exact ⟨q, hq2, hqn⟩
      rw [ih _ _ h3 hex2]
      have hb : (p.partido == name) = false := beq_eq_false_iff_ne.mpr hp
      rw [List.countP_cons, hb]
      simp

/-- C7: in the metadata export with a well-keyed party directory, every
directory name yields an entry carrying its directory sigla, cohesion
0.85 and a member count equal to the number of exported legislators with
exactly that party name; and every exported legislator whose party name
is not in the directory yields a synthetic entry under that name with
empty sigla, cohesion 0.80 and a member count equal to the number of
legislators with that name, so no legislator makes the loop fail. -/
theorem party_stats_characterization (rows : List PartidoRow) (parl : List Parlamentario)
    (hIds : (rows.map PartidoRow.partido_id).Nodup)
    (hNames : (rows.map PartidoRow.nombre_partido).Nodup) :
    (∀ r ∈ rows,
      List.lookup r.nombre_partido (partyStats rows parl) =
        some ⟨r.sigla, parl.countP (fun p => p.partido == r.nombre_partido),
          (85 : ℚ) / 100⟩) ∧
    (∀ p ∈ parl, p.partido ∉ rows.map PartidoRow.nombre_partido →
      List.lookup p.partido (partyStats rows parl) =
        some ⟨"", parl.countP (fun q => q.partido == p.partido), (80 : ℚ) / 100⟩) := by
  have hinit := initPartyStats_eq rows hIds hNames
  constructor
  · intro r hr
    have hlook : List.lookup r.nombre_partido (initPartyStats rows) =
        some (⟨r.sigla, 0, (85 : ℚ) / 100⟩ : PartyStat) := by
      rw [hinit]
      exact lookup_map_of_nodup (fun x : PartidoRow => x.nombre_partido)
        (fun x : PartidoRow => (⟨x.sigla, 0, (85 : ℚ) / 100⟩ : PartyStat)) rows hNames r hr
    have h := lookup_foldl_addMember_some parl _ _ _ hlook
    unfold partyStats
    rw [h]
    simp
  · intro p hp hnot
    have hnone : List.lookup p.partido (initPartyStats rows) = none := by
      rw [hinit]
      exact lookup_map_none (fun x : PartidoRow => x.nombre_partido)
        (fun x : PartidoRow => (⟨x.sigla, 0, (85 : ℚ) / 100⟩ : PartyStat)) rows p.partido hnot
    exact lookup_foldl_addMember_none parl _ _ hnone ⟨p, hp, rfl⟩

/-- Witness: the party statistics at the concrete directory
`partidoRowsW` (Partido Socialista, Renovacion Nacional) and legislators
`parlListW` (two socialists and one member of the unknown party Nuevo
Partido). -/
theorem party_stats_characterization_witness :
    (partidoRowsW.map PartidoRow.partido_id).Nodup ∧
    (partidoRowsW.map PartidoRow.nombre_partido).Nodup ∧
    psRow ∈ partidoRowsW ∧
    parlListW.countP (fun p => p.partido == psRow.nombre_partido) = 2 ∧
    List.lookup psRow.nombre_partido (partyStats partidoRowsW parlListW) =
      some ⟨psRow.sigla, parlListW.countP (fun p => p.partido == psRow.nombre_partido),
        (85 : ℚ) / 100⟩ ∧
    parlListW.countP (fun q => q.partido == nuevoParl.partido) = 1 ∧
    List.lookup nuevoParl.partido (partyStats partidoRowsW parlListW) =
      some ⟨"", parlListW.countP (fun q => q.partido == nuevoParl.partido),
        (80 : ℚ) / 100⟩ :=
  ⟨by decide, by decide, by decide, by decide,
    (party_stats_characterization partidoRowsW parlListW (by decide) (by decide)).1
      psRow (by decide),
    by decide,
    (party_stats_characterization partidoRowsW parlListW (by decide) (by decide)).2
      nuevoParl (by decide) (by decide)⟩

end ExportData

namespace ExportData

/-! ### Bill dictionary lemmas -/

theorem mem_of_lookup [BEq κ] [LawfulBEq κ] (m : List (κ × β)) (k : κ) (b : β)
    (h : List.lookup k m = some b) : (k, b) ∈ m := by
  induction m with
  | nil => cases h
  | cons e rest ih =>
    obtain ⟨k0, v0⟩ := e
    by_cases hk : (k == k0) = true
    · have hke : k = k0 := beq_iff_eq.mp hk
      have hv : v0 = b := by
        simpa [List.lookup_cons, hk] using h
      subst hke
      subst hv
      exact List.mem_cons_self _ _
    · have hb2 : (k == k0) = false := by simpa using hk
      have h2 : List.lookup k rest = some b := by
        simpa [List.lookup_cons, hb2] using h
      exact List.mem_cons_of_mem _ (ih h2)

theorem lookup_of_mem_nodup [BEq κ] [LawfulBEq κ] (m : List (κ × β))
    (hnd : (m.map Prod.fst).Nodup) (k : κ) (b : β) (h : (k, b) ∈ m) :
    List.lookup k m = some b := by
  induction m with
  | nil => cases h
  | cons e rest ih =>
    obtain ⟨k0, v0⟩ := e
    rw [List.map_cons] at hnd
    obtain ⟨h1, h2⟩ := List.nodup_cons.mp hnd
    rcases List.mem_cons.mp h with heq | hmem
    · obtain ⟨hk, hv⟩ := Prod.mk.injEq .. |>.mp heq
      subst hk
      subst hv
      simp [List.lookup]
    · have hne : k ≠ k0 := by
        intro hkk
        subst hkk
        exact h1 (by simpa using List.mem_map_of_mem Prod.fst hmem)
      have hb : (k == k0) = false := beq_eq_false_iff_ne.mpr hne
      simp [List.lookup, hb, ih h2 hmem]

theorem mem_dictUpd [BEq κ] [LawfulBEq κ] (m : List (κ × β)) (k : κ) (v : β)
    (x : κ × β) (hx : x ∈ dictUpd m k v) : x = (k, v) ∨ x ∈ m := by
  induction m with
  | nil => simpa [dictUpd] using hx
  | cons e rest ih =>
    obtain ⟨k0, v0⟩ := e
    by_cases h0 : (k0 == k) = true
    · have h0e : k0 = k := beq_iff_eq.mp h0
      subst h0e
      simp only [dictUpd, beq_self_eq_true, if_true] at hx
      rcases List.mem_cons.mp hx with rfl | hx2
      · left; rfl
      · right; exact List.mem_cons_of_mem _ hx2
    · have hb : (k0 == k) = false := by simpa using h0
      simp only [dictUpd, hb, Bool.false_eq_true, ite_false] at hx
      rcases List.mem_cons.mp hx with rfl | hx2
      · right; exact List.mem_cons_self _ _
      · rcases ih hx2 with h | h
        · left; exact h
        · right; exact List.mem_cons_of_mem _ h

theorem lookup_some_of_mem_keys [BEq κ] [LawfulBEq κ] (m : List (κ × β)) (k : κ)
    (h : k ∈ m.map Prod.fst) : ∃ b, List.lookup k m = some b := by
  induction m with
  | nil => cases h
  | cons e rest ih =>
    obtain ⟨k0, v0⟩ := e
    by_cases hk : k = k0
    · subst hk
      exact ⟨v0, by simp [List.lookup]⟩
    · have hb : (k == k0) = false := beq_eq_false_iff_ne.mpr hk
      have h2 : k ∈ rest.map Prod.fst := by
        rw [List.map_cons] at h
        rcases List.mem_cons.mp h with h3 | h3
        · exact absurd h3 hk
        · exact h3
      obtain ⟨b, hb2⟩ := ih h2
      exact ⟨b, by simp [List.lookup, hb, hb2]⟩

theorem keys_dictUpd_of_mem [BEq κ] [LawfulBEq κ] (m : List (κ × β)) (k : κ) (v b : β)
    (h : List.lookup k m = some b) :
    (dictUpd m k v).map Prod.fst = m.map Prod.fst := by
  induction m with
  | nil => cases h
  | cons e rest ih =>
    obtain ⟨k0, v0⟩ := e
    by_cases h0 : k0 = k
    · subst h0
      simp [dictUpd]
    · have hb : (k0 == k) = false := beq_eq_false_iff_ne.mpr h0
      have hb2 : (k == k0) = false := beq_eq_false_iff_ne.mpr (Ne.symm h0)
      have h2 : List.lookup k rest = some b := by
        simpa [List.lookup_cons, hb2] using h
      simp [dictUpd, hb, ih h2]

theorem nodup_keys_dictUpd [BEq κ] [LawfulBEq κ] (m : List (κ × β)) (k : κ) (v : β)
    (h : (m.map Prod.fst).Nodup) : ((dictUpd m k v).map Prod.fst).Nodup := by
  by_cases hk : k ∈ m.map Prod.fst
  · obtain ⟨b, hb⟩ := lookup_some_of_mem_keys m k hk
    rw [keys_dictUpd_of_mem m k v b hb]
    exact h
  · rw [dictUpd_append m k v hk, List.map_append]
    simp [List.nodup_append, h, hk]

theorem nodup_keys_foldl_dictUpd [BEq κ] [LawfulBEq κ] (kf : α → κ) (f : α → β) :
    ∀ (l : List α) (m : List (κ × β)), (m.map Prod.fst).Nodup →
      ((l.foldl (fun d a => dictUpd d (kf a) (f a)) m).map Prod.fst).Nodup := by
  intro l
  induction l with
  | nil => intro m h; simpa using h
  | cons a as ih =>
    intro m h
    rw [List.foldl_cons]
    exact ih _ (nodup_keys_dictUpd _ _ _ h)

theorem mem_foldl_dictUpd [BEq κ] [LawfulBEq κ] (kf : α → κ) (f : α → β) :
    ∀ (l : List α) (m : List (κ × β)) (x : κ × β),
      x ∈ l.foldl (fun d a => dictUpd d (kf a) (f a)) m →
      x ∈ m ∨ ∃ a ∈ l, x = (kf a, f a) := by
  intro l
  induction l with
  | nil => intro m x hx; left; simpa using hx
  | cons a as ih =>
    intro m x hx
    rw [List.foldl_cons] at hx
    rcases ih _ x hx with hm | ⟨c, hc, rfl⟩
    · rcases mem_dictUpd _ _ _ _ hm with rfl | hm2
      · right; exact ⟨a, List.mem_cons_self a as, rfl⟩
      · left; exact hm2
    · right; exact ⟨c, List.mem_cons_of_mem a hc, rfl⟩

theorem billsDictBase_nodup_keys (rows : List BillRow) :
    ((billsDictBase rows).map Prod.fst).Nodup := by
  unfold billsDictBase
  exact nodup_keys_foldl_dictUpd (fun r : BillRow => r.bill_id) mkBill _ [] (by simp)

theorem billsDictBase_entries (rows : List BillRow) (x : String × Bill)
    (hx : x ∈ billsDictBase rows) :
    ∃ r ∈ sortIns billDescLe rows, x = (r.bill_id, mkBill r) := by
  unfold billsDictBase at hx
  rcases mem_foldl_dictUpd (fun r : BillRow => r.bill_id) mkBill _ [] x hx with hm | h
  · cases hm
  · exact h

/-- Looking a bill id up after the materias loop: the loop appends, to
the looked-up base entry, exactly the tag names of the join rows whose
bill id matches; ids absent from the base mapping stay absent. -/
theorem lookup_attachMaterias :
    ∀ (joins : List (String × String)) (d : List (String × Bill)) (k : String),
      List.lookup k (attachMaterias d joins) =
        (List.lookup k d).map (fun b =>
          { b with materias :=
              b.materias ++ (joins.filter (fun j => j.1 == k)).map Prod.snd }) := by
  intro joins
  induction joins with
  | nil =>
    intro d k
    cases h : List.lookup k d <;> simp [attachMaterias, h]
  | cons j rest ih =>
    intro d k
    have hstep : attachMaterias d (j :: rest) =
        attachMaterias
          (match List.lookup j.1 d with
            | some b => dictUpd d j.1 { b with materias := b.materias ++ [j.2] }
            | none => d) rest := by
      unfold attachMaterias
      rw [List.foldl_cons]
    rw [hstep]
    by_cases hk : j.1 = k
    · subst hk
      cases h : List.lookup j.1 d with
      | none =>
        simp only [h]
        rw [ih d j.1, h]
        simp
      | some b =>
        simp only [h]
        rw [ih _ j.1, lookup_dictUpd_self]
        simp [List.filter_cons]
    · cases h : List.lookup j.1 d with
      | none =>
        simp only [h]
        rw [ih d k]
        have hb : (j.1 == k) = false := beq_eq_false_iff_ne.mpr hk
        simp [List.filter_cons, hb]
      | some b =>
        simp only [h]
        rw [ih _ k, lookup_dictUpd_other d j.1 k _ (Ne.symm hk)]
        have hb : (j.1 == k) = false := beq_eq_false_iff_ne.mpr hk
        simp [List.filter_cons, hb]

/-- The materias loop touches values only: the key list of the bill
mapping is unchanged, so unknown join ids create no entry. -/
theorem keys_attachMaterias :
    ∀ (joins : List (String × String)) (d : List (String × Bill)),
      (attachMaterias d joins).map Prod.fst = d.map Prod.fst := by
  intro joins
  induction joins with
  | nil => intro d; rfl
  | cons j rest ih =>
    intro d
    have hstep : attachMaterias d (j :: rest) =
        attachMaterias
          (match List.lookup j.1 d with
            | some b => dictUpd d j.1 { b with materias := b.materias ++ [j.2] }
            | none => d) rest := by
      unfold attachMaterias
      rw [List.foldl_cons]
    rw [hstep]
    cases h : List.lookup j.1 d with
    | none =>
      simp only [h]
      exact ih d
    | some b =>
      simp only [h]
      rw [ih _]
      exact keys_dictUpd_of_mem d j.1 _ b h

end ExportData

namespace ExportData

/-- C10: subject-tag join rows are attached by bill identity: the join
phase changes no keys of the bill mapping (a join row whose bill id is
not among the bills creates no entry and raises no error), every
exported bill id stems from a stored bill row, and the materias of every
exported bill are exactly the tag names of the join rows carrying its
id, in join order. -/
theorem materias_join_filter (rows : List BillRow) (joins : List (String × String)) :
    (attachMaterias (billsDictBase rows) joins).map Prod.fst =
      (billsDictBase rows).map Prod.fst ∧
    ∀ b ∈ exportBills rows joins,
      b.id ∈ rows.map BillRow.bill_id ∧
      b.materias = (joins.filter (fun j => j.1 == b.id)).map Prod.snd := by
  refine ⟨keys_attachMaterias joins (billsDictBase rows), ?_⟩
  intro b hb
  unfold exportBills at hb
  obtain ⟨x, hx, hbx⟩ := List.mem_map.mp hb
  obtain ⟨k, b2⟩ := x
  have hb2 : b2 = b := hbx
  subst hb2
  have hndkeys : ((attachMaterias (billsDictBase rows) joins).map Prod.fst).Nodup := by
    rw [keys_attachMaterias]
    exact billsDictBase_nodup_keys rows
  have hlookA : List.lookup k (attachMaterias (billsDictBase rows) joins) = some b2 :=
    lookup_of_mem_nodup _ hndkeys k b2 hx
  rw [lookup_attachMaterias joins _ k] at hlookA
  cases hbase : List.lookup k (billsDictBase rows) with
  | none =>
    rw [hbase] at hlookA
    cases hlookA
  | some b0 =>
    rw [hbase] at hlookA
    have hbeq : { b0 with materias :=
        b0.materias ++ (joins.filter (fun j => j.1 == k)).map Prod.snd } = b2 := by
      simpa using hlookA
    obtain ⟨r, hrmem, hre⟩ := billsDictBase_entries rows (k, b0) (mem_of_lookup _ _ _ hbase)
    obtain ⟨hk, hb0⟩ := Prod.mk.injEq .. |>.mp hre
    subst hk
    subst hb0
    subst hbeq
    have hrrows : r ∈ rows := ((sortIns_perm billDescLe rows).mem_iff).mp hrmem
    constructor
    · exact List.mem_map_of_mem BillRow.bill_id hrrows
    · simp [mkBill]

/-- Witness: the join filtering at the concrete bill list `billRowsW`
and joins `joinsW`, whose second join row names the unknown bill id bX
and is dropped. -/
theorem materias_join_filter_witness :
    (attachMaterias (billsDictBase billRowsW) joinsW).map Prod.fst =
      (billsDictBase billRowsW).map Prod.fst ∧
    billW ∈ exportBills billRowsW joinsW ∧
    billW.id ∈ billRowsW.map BillRow.bill_id ∧
    billW.materias = (joinsW.filter (fun j => j.1 == billW.id)).map Prod.snd :=
  ⟨(materias_join_filter billRowsW joinsW).1,
    by decide,
    ((materias_join_filter billRowsW joinsW).2 billW (by decide)).1,
    ((materias_join_filter billRowsW joinsW).2 billW (by decide)).2⟩

/-- C8: the embedding exporter emits one identity-vector pair per stored
row with the vector unchanged, and reports a descriptor whose model name
and dimension are the hardcoded constants all-MiniLM-L6-v2 and 384 and
whose count is the number of exported records; the descriptor is the
same for any row list of equal length, whatever per-row model names and
dimensions are stored. -/
theorem embeddings_passthrough_descriptor (rows : List EmbeddingRow) :
    (exportEmbeddings rows).1 = rows.map (fun r => EmbPair.mk r.bill_id r.embedding) ∧
    (exportEmbeddings rows).2 = ⟨"all-MiniLM-L6-v2", 384, rows.length⟩ ∧
    ∀ rows2 : List EmbeddingRow, rows2.length = rows.length →
      (exportEmbeddings rows2).2 = (exportEmbeddings rows).2 := by
  refine ⟨rfl, ?_, ?_⟩
  · unfold exportEmbeddings
    simp
  · intro rows2 h
    unfold exportEmbeddings
    simp [h]

/-- Witness: the embedding export at the one-row stores `embRowsA` and
`embRowsB`, whose stored model names and dimensions differ. -/
theorem embeddings_passthrough_descriptor_witness :
    (exportEmbeddings embRowsA).1 =
      embRowsA.map (fun r => EmbPair.mk r.bill_id r.embedding) ∧
    embRowsB.length = embRowsA.length ∧
    (exportEmbeddings embRowsB).2 = (exportEmbeddings embRowsA).2 :=
  ⟨(embeddings_passthrough_descriptor embRowsA).1, rfl,
    (embeddings_passthrough_descriptor embRowsA).2.2 embRowsB rfl⟩

/-- C9: the export is a deterministic function of the store contents:
two runs of the whole pipeline against equal query results produce equal
values for all four output files and the embedding descriptor; the
embedded pipeline reads no clock, randomness or other run-dependent
input, so equal stores give byte-identical serialized files. -/
theorem export_deterministic (s1 s2 : Store) (h : s1 = s2)
    (out1 out2 : ExportOutput) (h1 : out1 = exportAll s1) (h2 : out2 = exportAll s2) :
    out1 = out2 := by
  subst h
  subst h1
  subst h2
  rfl

/-- Witness: two runs against the empty store. -/
theorem export_deterministic_witness :
    exportAll emptyStore = exportAll emptyStore :=
  export_deterministic emptyStore emptyStore rfl _ _ rfl rfl

end ExportData
